import Mathlib

/-!
Verification of the distributed MNIST training script (`src/main.py`).

The script is thin orchestration over a deep-learning framework: the dataset
partitioner (a distributed sampler constructed at `main.py:24-26` with
`shuffle=True, seed=42` and re-seeded per epoch at `main.py:77`), the SGD
optimizer (`main.py:71`, `lr=0.01`), and the gradient-averaging wrapper
(`main.py:68`) are framework components whose code is not in the repository.
Those components are modelled here from the specification; the training loop
itself (`main.py:75-114`), the checkpoint logic (`main.py:148-150`) and the
model architecture (`main.py:48-58`) are embedded from the source.
-/

/-! ## Dataset partitioner -/

/-- Modelled from the spec: one step of the pseudorandom generator that seeds
the shuffle (the framework generator is not in the repository).  A classic
linear congruential generator on 31-bit state. -/
def lcgNext (s : ℕ) : ℕ := (1103515245 * s + 12345) % 2147483648

/-- Modelled from the spec: fuel-indexed Fisher-Yates shuffle.  Each step draws
the next generator state, picks the element at `state mod length`, and recurses
on the remainder.  Called with fuel = length, so the fallback branches are
never reached on the actual call. -/
def shuffleFuel : ℕ → List ℕ → ℕ → List ℕ
  | 0, l, _ => l
  | _ + 1, [], _ => []
  | f + 1, a :: rest, g =>
      let g' := lcgNext g
      let j := g' % (rest.length + 1)
      (a :: rest).get ⟨j, Nat.mod_lt _ (Nat.succ_pos _)⟩ ::
        shuffleFuel f ((a :: rest).eraseIdx j) g'

/-- Modelled from the spec: the seeded pseudorandom permutation applied to a
list. -/
def shuffle (l : List ℕ) (seed : ℕ) : List ℕ := shuffleFuel l.length l seed

/-- Modelled from the spec: the per-epoch seed is a deterministic hash of the
base seed and the epoch number (`sampler.set_epoch(i)` at `main.py:77` combined
with `seed=42` at `main.py:26`); the framework combines them additively. -/
def hashSeed (baseSeed epochNumber : ℕ) : ℕ := baseSeed + epochNumber

/-- Modelled from the spec: the full index range `[0, n)` permuted by the
pseudorandom generator seeded by `hashSeed baseSeed epoch`. -/
def permOf (n baseSeed epoch : ℕ) : List ℕ :=
  shuffle (List.range n) (hashSeed baseSeed epoch)

/-- Modelled from the spec: each of the `w` workers receives an equal-length
chunk of `ceil (n / w)` indices. -/
def chunkSize (n w : ℕ) : ℕ := (n + w - 1) / w

/-- Number of padding entries needed so that `w` equal chunks cover the
permuted index list. -/
def padCount (n w : ℕ) : ℕ := chunkSize n w * w - n

/-- Modelled from the spec: padding repeats the tail of the shuffled sequence
(cyclically, should the padding exceed the sequence length). -/
def padTail (p : List ℕ) (pad : ℕ) : List ℕ :=
  (List.range pad).map (fun j => p.getD (p.length - 1 - (pad - 1 - j) % p.length) 0)

/-- The shuffled index sequence padded to length `chunkSize n w * w`. -/
def paddedPerm (n w baseSeed epoch : ℕ) : List ℕ :=
  permOf n baseSeed epoch ++ padTail (permOf n baseSeed epoch) (padCount n w)

/-- Modelled from the spec: contract
`derivePartition(datasetSize, workerRank, worldSize, baseSeed, epochNumber)`.
The permuted, padded index sequence is sliced into `worldSize` contiguous
chunks and worker `workerRank` receives chunk `workerRank`. -/
def derivePartition (datasetSize workerRank worldSize baseSeed epochNumber : ℕ) :
    List ℕ :=
  ((paddedPerm datasetSize worldSize baseSeed epochNumber).drop
      (workerRank * chunkSize datasetSize worldSize)).take
    (chunkSize datasetSize worldSize)

/-- A worker process: the device rank passed on the command line
(`main.py:120`) together with unrelated process-local state.  Partition
derivation on a worker consults only the rank and the shared arguments. -/
structure WorkerProc where
  rank : ℕ
  localScratch : ℕ

/-- Partition derivation as executed by one worker process (`main.py:77`
resets the sampler epoch, then iteration over the loader yields the chunk of
the shared permutation belonging to this rank). -/
def deriveOnWorker (p : WorkerProc) (n w baseSeed epoch : ℕ) : List ℕ :=
  derivePartition n p.rank w baseSeed epoch

/-- Modelled from the spec: the data loader groups a partition of the given
length into batches of `bsz` examples (last batch possibly smaller). -/
def numBatches (len bsz : ℕ) : ℕ := (len + bsz - 1) / bsz

/-! ## Training loop -/

/-- Elementwise sum of two gradient/parameter vectors. -/
def vadd (x y : List ℚ) : List ℚ := List.zipWith (· + ·) x y

/-- Scale a gradient/parameter vector by a rational. -/
def vscale (q : ℚ) (x : List ℚ) : List ℚ := x.map (fun a => q * a)

/-- Sum of a list of gradient vectors. -/
def sumVecs : List (List ℚ) → List ℚ
  | [] => []
  | [v] => v
  | v :: vs => vadd v (sumVecs vs)

/-- Modelled from the spec: one update of the plain SGD optimizer constructed
at `main.py:71` with fixed learning rate: each parameter becomes
`p - lr * g`, with no momentum, clipping or schedule. -/
def sgdStep (lr : ℚ) (p g : List ℚ) : List ℚ :=
  List.zipWith (fun a b => a - lr * b) p g

/-- Modelled from the spec: the gradient-averaging collective of the
distributed wrapper (`main.py:68`).  Worker `k` contributes the gradient
computed on its own batch at its own replica `ps k`; the returned average is
the same value on every worker. -/
def avgGrad (w : ℕ) (grad : ℕ → ℕ → List ℚ → List ℚ) (b : ℕ)
    (ps : ℕ → List ℚ) : List ℚ :=
  vscale (1 / (w : ℚ)) (sumVecs ((List.range w).map (fun k => grad k b (ps k))))

/-- One synchronized batch step (`main.py:87-91`): after the gradient-average
barrier, every worker applies one SGD step with the shared averaged gradient
to its own parameter replica. -/
def ddpBatchStep (w : ℕ) (lr : ℚ) (grad : ℕ → ℕ → List ℚ → List ℚ) (b : ℕ)
    (ps : ℕ → List ℚ) : ℕ → List ℚ :=
  fun k => sgdStep lr (ps k) (avgGrad w grad b ps)

/-- The batch loop of one training epoch (`main.py:82-94`), tracking every
worker's parameter replica across the listed batches. -/
def runBatches (w : ℕ) (lr : ℚ) (grad : ℕ → ℕ → List ℚ → List ℚ)
    (bs : List ℕ) (ps : ℕ → List ℚ) : ℕ → List ℚ :=
  bs.foldl (fun st b => ddpBatchStep w lr grad b st) ps

/-- The running epoch-loss accumulation of `main.py:79` and `main.py:93`:
starting from zero, each batch adds its scalar loss divided by that batch's
size.  There is no division by the number of batches. -/
def epochLossAccum (bl : List (ℚ × ℕ)) : ℚ :=
  bl.foldl (fun acc b => acc + b.1 / (b.2 : ℚ)) 0

/-- The validation pass of `main.py:97-110`: a fold over the validation
batches carrying the parameters and the running loss.  The body computes the
batch loss at the current parameters and accumulates `loss / batch_size`
(`main.py:109`); no gradient or parameter assignment appears in the body. -/
def validationPass (lossFn : List ℚ → ℕ → ℚ) (p : List ℚ)
    (batches : List (ℕ × ℕ)) : (List ℚ) × ℚ :=
  batches.foldl (fun st b => (st.1, st.2 + lossFn st.1 b.1 / (b.2 : ℚ))) (p, 0)

/-! ## Non-finite loss values -/

/-- A scalar loss value as produced by the framework: either an ordinary
number or a non-finite value. -/
inductive FVal where
  | num : ℚ → FVal
  | nan : FVal
deriving DecidableEq

/-- Modelled from the spec: addition on loss scalars; a non-finite operand
makes the result non-finite. -/
def fadd : FVal → FVal → FVal
  | FVal.num a, FVal.num b => FVal.num (a + b)
  | _, _ => FVal.nan

/-- Modelled from the spec: division of a loss scalar by a batch size; a
non-finite value stays non-finite. -/
def fdivNat : FVal → ℕ → FVal
  | FVal.num a, s => FVal.num (a / (s : ℚ))
  | FVal.nan, _ => FVal.nan

/-- Body of the train batch loop of `main.py:82-94` on scalar losses: the
first component accumulates `batch_loss / batch_size` (`main.py:93`), the
second counts executed optimizer steps (`optimizer.step()`, `main.py:91`).
The body contains no finiteness test. -/
def trainStep (st : FVal × ℕ) (b : FVal × ℕ) : FVal × ℕ :=
  (fadd st.1 (fdivNat b.1 b.2), st.2 + 1)

/-- The train batch loop of `main.py:82-94` over a list of per-batch scalar
losses paired with batch sizes. -/
def trainLoopFV (bl : List (FVal × ℕ)) : FVal × ℕ :=
  bl.foldl trainStep (FVal.num 0, 0)

/-! ## Model architecture and checkpoint -/

/-- One layer of the sequential model. -/
inductive Layer where
  | linear : ℕ → ℕ → Bool → Layer
  | relu : Layer
  | dropout : ℚ → Layer
deriving DecidableEq

/-- The architecture built by `create_model` (`main.py:48-58`): Linear
784→128 with bias, ReLU, Dropout 0.2, Linear 128→128 with bias, ReLU,
Linear 128→10 without bias. -/
def create_model : List Layer :=
  [Layer.linear 784 128 true, Layer.relu, Layer.dropout (1/5),
   Layer.linear 128 128 true, Layer.relu, Layer.linear 128 10 false]

/-- Modelled from the spec: the state-dict parameter names contributed by the
layer at a given index of the sequential container.  A linear layer owns a
weight and, when configured, a bias; activations and dropout own nothing. -/
def layerParamKeys (idx : ℕ) : Layer → List String
  | Layer.linear _ _ b =>
      if b then [toString idx ++ ".weight", toString idx ++ ".bias"]
      else [toString idx ++ ".weight"]
  | Layer.relu => []
  | Layer.dropout _ => []

/-- Modelled from the spec: the state dict of a sequential model maps each
parameter-owning layer index to its parameter names. -/
def stateDictKeys (layers : List Layer) : List String :=
  layers.enum.flatMap (fun p => layerParamKeys p.1 p.2)

/-- The distributed wrapper built at `main.py:68`: it holds the base model in
its `module` field. -/
structure DDPWrapper where
  module : List Layer

/-- Modelled from the spec: the state dict of the distributed wrapper reuses
the base-model keys under the wrapper's `module.` name. -/
def ddpStateDictKeys (m : DDPWrapper) : List String :=
  (stateDictKeys m.module).map (fun k => "module." ++ k)

/-- The model handed back by `main` (`return model.module`, `main.py:114`):
the base model unwrapped from the distributed wrapper of `main.py:68`. -/
def mainReturnedModel : List Layer := (DDPWrapper.mk create_model).module

/-- Keys of the checkpoint written at `main.py:150`: the state dict of the
model returned by `main`. -/
def savedKeys : List String := stateDictKeys mainReturnedModel

/-- The checkpoint phase of the entry point (`main.py:148-150`): the worker
reads its rank and performs one write call, carrying the state dict of the
returned model, exactly when the rank is zero. -/
def checkpointWriteCalls (rank : ℕ) (keys : List String) : List (List String) :=
  if rank = 0 then [keys] else []

/-! ## Shuffle infrastructure -/

theorem get_cons_eraseIdx_perm (l : List ℕ) (j : ℕ) (h : j < l.length) :
    (l.get ⟨j, h⟩ :: l.eraseIdx j).Perm l := by
  induction l generalizing j with
  | nil => simp at h
  | cons a t ih =>
      cases j with
      | zero => simp [List.eraseIdx]
      | succ j =>
          have hj : j < t.length := by simpa using h
          have step : (a :: t).get ⟨j + 1, h⟩ :: (a :: t).eraseIdx (j + 1)
              = t.get ⟨j, hj⟩ :: a :: t.eraseIdx j := rfl
          rw [step]
          exact ((List.Perm.swap a (t.get ⟨j, hj⟩) (t.eraseIdx j)).trans
            ((ih j hj).cons a))

theorem shuffleFuel_perm (f : ℕ) (l : List ℕ) (g : ℕ) :
    (shuffleFuel f l g).Perm l := by
  induction f generalizing l g with
  | zero => simp [shuffleFuel]
  | succ f ih =>
      cases l with
      | nil => simp [shuffleFuel]
      | cons a rest =>
          rw [shuffleFuel]
          exact ((ih _ _).cons _).trans (get_cons_eraseIdx_perm (a :: rest) _ _)

theorem shuffle_perm (l : List ℕ) (seed : ℕ) : (shuffle l seed).Perm l :=
  shuffleFuel_perm _ _ _

theorem permOf_perm (n s e : ℕ) : (permOf n s e).Perm (List.range n) :=
  shuffle_perm _ _

theorem permOf_length (n s e : ℕ) : (permOf n s e).length = n := by
  simpa using (permOf_perm n s e).length_eq

theorem permOf_nodup (n s e : ℕ) : (permOf n s e).Nodup :=
  ((permOf_perm n s e).nodup_iff).mpr (List.nodup_range n)

theorem mem_permOf_iff (n s e x : ℕ) : x ∈ permOf n s e ↔ x < n := by
  rw [(permOf_perm n s e).mem_iff, List.mem_range]

/-! ## Chunk arithmetic -/

theorem chunkSize_pos (n w : ℕ) (hn : 0 < n) (hw : 0 < w) : 0 < chunkSize n w := by
  unfold chunkSize
  have h1 : 1 ≤ (n + w - 1) / w := (Nat.le_div_iff_mul_le hw).mpr (by omega)
  omega

theorem le_chunkSize_mul (n w : ℕ) (hw : 0 < w) : n ≤ chunkSize n w * w := by
  unfold chunkSize
  have h1 := Nat.div_add_mod (n + w - 1) w
  have h2 := Nat.mod_lt (n + w - 1) hw
  have h3 : w * ((n + w - 1) / w) = (n + w - 1) / w * w := Nat.mul_comm _ _
  omega

theorem chunkSize_mul_of_dvd (n w : ℕ) (hw : 0 < w) (h : w ∣ n) :
    chunkSize n w * w = n := by
  obtain ⟨m, rfl⟩ := h
  unfold chunkSize
  have h1 : w * m + w - 1 = (w - 1) + w * m := by omega
  rw [h1, Nat.add_mul_div_left _ _ hw, Nat.div_eq_of_lt (by omega)]
  ring

theorem padTail_sub (p : List ℕ) (pad : ℕ) (hp : 0 < p.length) :
    ∀ x ∈ padTail p pad, x ∈ p := by
  intro x hx
  unfold padTail at hx
  obtain ⟨j, _, hj⟩ := List.mem_map.mp hx
  have hlt : p.length - 1 - (pad - 1 - j) % p.length < p.length := by omega
  rw [List.getD_eq_getElem p 0 hlt] at hj
  exact hj ▸ List.getElem_mem hlt

theorem paddedPerm_length (n w s e : ℕ) (hw : 0 < w) :
    (paddedPerm n w s e).length = chunkSize n w * w := by
  have hle := le_chunkSize_mul n w hw
  simp only [paddedPerm, padTail, padCount, List.length_append, permOf_length,
    List.length_map, List.length_range]
  omega

theorem mem_paddedPerm_iff (n w s e x : ℕ) (hw : 0 < w) :
    x ∈ paddedPerm n w s e ↔ x < n := by
  constructor
  · intro hx
    rcases List.mem_append.mp hx with h | h
    · exact (mem_permOf_iff n s e x).mp h
    · rcases Nat.eq_zero_or_pos n with rfl | hn
      · have hc : chunkSize 0 w = 0 := by
          unfold chunkSize
          exact Nat.div_eq_of_lt (by omega)
        simp [padCount, hc, padTail] at h
      · exact (mem_permOf_iff n s e x).mp
          (padTail_sub _ _ (by rw [permOf_length]; exact hn) x h)
  · intro hx
    exact List.mem_append_left _ ((mem_permOf_iff n s e x).mpr hx)

theorem derivePartition_length (n r w s e : ℕ) (hw : 0 < w) (hr : r < w) :
    (derivePartition n r w s e).length = chunkSize n w := by
  have hmul : (r + 1) * chunkSize n w ≤ w * chunkSize n w :=
    Nat.mul_le_mul_right _ hr
  have hsucc : (r + 1) * chunkSize n w = r * chunkSize n w + chunkSize n w :=
    Nat.succ_mul _ _
  have hcomm : w * chunkSize n w = chunkSize n w * w := Nat.mul_comm _ _
  simp only [derivePartition, List.length_take, List.length_drop,
    paddedPerm_length n w s e hw]
  omega

theorem getElem_drop_take_mem (l : List ℕ) (a b k : ℕ) (hk : k < b)
    (h : a + k < l.length) : l[a + k] ∈ (l.drop a).take b := by
  refine List.mem_iff_getElem.mpr ⟨k, ?_, ?_⟩
  · simp only [List.length_take, List.length_drop]
    omega
  · rw [List.getElem_take, List.getElem_drop]

theorem mem_take_of_getElem (l : List ℕ) (m p : ℕ) (hp : p < l.length)
    (hm : p < m) : l[p] ∈ l.take m := by
  refine List.mem_iff_getElem.mpr ⟨p, ?_, ?_⟩
  · simp only [List.length_take]
    omega
  · rw [List.getElem_take]

theorem nodup_take_drop_disjoint (l : List ℕ) (hl : l.Nodup) (m : ℕ) :
    (l.take m).Disjoint (l.drop m) := by
  have h2 : (l.take m ++ l.drop m).Nodup := by
    rw [List.take_append_drop]
    exact hl
  exact (List.nodup_append.mp h2).2.2

theorem derivePartition_subset_paddedPerm (n r w s e : ℕ) :
    ∀ x ∈ derivePartition n r w s e, x ∈ paddedPerm n w s e := by
  intro x hx
  exact List.drop_subset _ _ (List.take_subset _ _ hx)

theorem derivePartition_union (n w s e : ℕ) (hw : 0 < w) :
    (Finset.range w).biUnion
        (fun r => (derivePartition n r w s e).toFinset) = Finset.range n := by
  ext x
  simp only [Finset.mem_biUnion, Finset.mem_range, List.mem_toFinset]
  constructor
  · rintro ⟨r, _, hx⟩
    exact (mem_paddedPerm_iff n w s e x hw).mp
      (derivePartition_subset_paddedPerm n r w s e x hx)
  · intro hx
    have hn : 0 < n := by omega
    have hc : 0 < chunkSize n w := chunkSize_pos n w hn hw
    obtain ⟨p, hp, hxp⟩ := List.mem_iff_getElem.mp ((mem_permOf_iff n s e x).mpr hx)
    have hpn : p < n := by
      rw [permOf_length] at hp
      exact hp
    have hplen : p < (paddedPerm n w s e).length := by
      rw [paddedPerm_length n w s e hw]
      have := le_chunkSize_mul n w hw
      omega
    have happ : (paddedPerm n w s e)[p] = x := by
      unfold paddedPerm
      rw [List.getElem_append_left hp]
      exact hxp
    refine ⟨p / chunkSize n w, ?_, ?_⟩
    · exact (Nat.div_lt_iff_lt_mul hc).mpr
        (lt_of_lt_of_le hpn
          (by rw [Nat.mul_comm]; exact le_chunkSize_mul n w hw))
    · have hsum : p / chunkSize n w * chunkSize n w + p % chunkSize n w = p := by
        rw [Nat.mul_comm]
        exact Nat.div_add_mod p (chunkSize n w)
      have hmem := getElem_drop_take_mem (paddedPerm n w s e)
        (p / chunkSize n w * chunkSize n w) (chunkSize n w) (p % chunkSize n w)
        (Nat.mod_lt _ hc) (by omega)
      simp only [hsum, happ] at hmem
      exact hmem

theorem derivePartition_disjoint_of_dvd (n w s e : ℕ) (hw : 0 < w)
    (hdvd : w ∣ n) : ∀ r r' x, r < w → r' < w → r ≠ r' →
      x ∈ derivePartition n r w s e → x ∉ derivePartition n r' w s e := by
  have hpad : paddedPerm n w s e = permOf n s e := by
    have h0 : padCount n w = 0 := by
      have := chunkSize_mul_of_dvd n w hw hdvd
      unfold padCount
      omega
    simp [paddedPerm, h0, padTail]
  -- an element of chunk r sits at a position below (r + 1) * chunkSize
  have key : ∀ r r' x, r < w → r' < w → r < r' →
      x ∈ derivePartition n r w s e → x ∉ derivePartition n r' w s e := by
    intro r r' x hr hr' hlt hx hx'
    obtain ⟨k, hk, he⟩ := List.mem_iff_getElem.mp hx
    have hkc : k < chunkSize n w := by
      rw [derivePartition_length n r w s e hw hr] at hk
      exact hk
    have hkl : r * chunkSize n w + k < (paddedPerm n w s e).length := by
      rw [paddedPerm_length n w s e hw]
      have h1 : (r + 1) * chunkSize n w ≤ w * chunkSize n w :=
        Nat.mul_le_mul_right _ hr
      have h2 : (r + 1) * chunkSize n w = r * chunkSize n w + chunkSize n w :=
        Nat.succ_mul _ _
      have h3 : w * chunkSize n w = chunkSize n w * w := Nat.mul_comm _ _
      omega
    have hkt : k < (((paddedPerm n w s e).drop
        (r * chunkSize n w)).take (chunkSize n w)).length := hk
    have he' : (((paddedPerm n w s e).drop (r * chunkSize n w)).take
        (chunkSize n w))[k] = x := he
    rw [List.getElem_take, List.getElem_drop] at he'
    have hxtake : x ∈ (paddedPerm n w s e).take (r' * chunkSize n w) := by
      rw [← he']
      refine mem_take_of_getElem _ (r' * chunkSize n w) (r * chunkSize n w + k)
        hkl ?_
      have h1 : (r + 1) * chunkSize n w ≤ r' * chunkSize n w :=
        Nat.mul_le_mul_right _ hlt
      have h2 : (r + 1) * chunkSize n w = r * chunkSize n w + chunkSize n w :=
        Nat.succ_mul _ _
      omega
    have hxdrop : x ∈ (paddedPerm n w s e).drop (r' * chunkSize n w) :=
      List.take_subset _ _ hx'
    have hnodup : (paddedPerm n w s e).Nodup := by
      rw [hpad]
      exact permOf_nodup n s e
    exact nodup_take_drop_disjoint _ hnodup (r' * chunkSize n w) hxtake hxdrop
  intro r r' x hr hr' hne hx hx'
  rcases Nat.lt_or_ge r r' with hlt | hge
  · exact key r r' x hr hr' hlt hx hx'
  · have hlt' : r' < r := by omega
    exact key r' r x hr' hr hlt' hx' hx

/-- C1: for every dataset size, world size, base seed and epoch, the rank
partitions all have equal length `chunkSize` and their union is the full index
set `[0, datasetSize)`; they are pairwise disjoint whenever the world size
divides the dataset size (padding for non-divisible sizes necessarily places
some index in two ranks, see the counterexample). -/
theorem partitions_equal_length_union_disjoint (n w s e : ℕ) (hw : 0 < w) :
    (∀ r, r < w → (derivePartition n r w s e).length = chunkSize n w) ∧
    (Finset.range w).biUnion
        (fun r => (derivePartition n r w s e).toFinset) = Finset.range n ∧
    (w ∣ n → ∀ r r' x, r < w → r' < w → r ≠ r' →
      x ∈ derivePartition n r w s e → x ∉ derivePartition n r' w s e) :=
  ⟨fun r hr => derivePartition_length n r w s e hw hr,
   derivePartition_union n w s e hw,
   fun hdvd => derivePartition_disjoint_of_dvd n w s e hw hdvd⟩

/-- C1 counterexample: with one training example and two workers (seed 42,
epoch 0) both ranks receive the index 0, so the partitions are not pairwise
disjoint. -/
theorem partitions_not_disjoint_counterexample :
    derivePartition 1 0 2 42 0 = [0] ∧ derivePartition 1 1 2 42 0 = [0] ∧
    0 ∈ derivePartition 1 0 2 42 0 ∧ 0 ∈ derivePartition 1 1 2 42 0 := by
  decide

/-- C1 witness: the amended statement instantiated at 9 indices over 3
workers. -/
theorem partitions_equal_length_union_disjoint_witness :
    0 < 3 ∧
    ((∀ r, r < 3 → (derivePartition 9 r 3 42 0).length = chunkSize 9 3) ∧
     (Finset.range 3).biUnion
         (fun r => (derivePartition 9 r 3 42 0).toFinset) = Finset.range 9 ∧
     (3 ∣ 9 → ∀ r r' x, r < 3 → r' < 3 → r ≠ r' →
       x ∈ derivePartition 9 r 3 42 0 → x ∉ derivePartition 9 r' 3 42 0)) :=
  ⟨by decide, partitions_equal_length_union_disjoint 9 3 42 0 (by decide)⟩

/-- C2: partition derivation is a pure, deterministic function of dataset
size, rank, world size, base seed and epoch number: two worker processes with
the same rank but arbitrary distinct process-local state derive the same
ordered index sequence, with no communication modelled anywhere in the
derivation. -/
theorem derivePartition_deterministic (p₁ p₂ : WorkerProc)
    (hrank : p₁.rank = p₂.rank) (n w s e : ℕ) :
    deriveOnWorker p₁ n w s e = deriveOnWorker p₂ n w s e := by
  simp [deriveOnWorker, hrank]

/-- C2 witness: two simulated workers of rank 1 with different local state
derive the same sequence. -/
theorem derivePartition_deterministic_witness :
    deriveOnWorker (WorkerProc.mk 1 7) 8 2 42 0
      = deriveOnWorker (WorkerProc.mk 1 99) 8 2 42 0 :=
  derivePartition_deterministic (WorkerProc.mk 1 7) (WorkerProc.mk 1 99) rfl 8 2 42 0

/-- C3 counterexample: at dataset size 4 with world size 4 (single-element
chunks), rank 1 derives the same partition for epochs 0 and 1 at the script's
base seed 42, so the partitions of consecutive epochs do not differ for every
rank and dataset size of at least 2. -/
theorem reshuffle_counterexample :
    2 ≤ 4 ∧ 1 < 4 ∧ derivePartition 4 1 4 42 0 = derivePartition 4 1 4 42 1 := by
  decide

/-- C3 amended: the partition is recomputed each epoch from a deterministic
per-epoch seed, and distinct epochs feed distinct seeds to the generator; at
the script's base seed 42 the derived ordered partitions of epochs 0 and 1
differ for every rank whenever the world size is strictly below the dataset
size, verified exhaustively for dataset sizes 2..16 (a single-element chunk,
world size equal to dataset size, may coincide across epochs, see the
counterexample). -/
theorem reshuffle_across_epochs :
    (∀ s e e', e ≠ e' → hashSeed s e ≠ hashSeed s e') ∧
    (∀ n, n < 17 → ∀ w, w < n → ∀ r, r < w →
      derivePartition n r w 42 0 ≠ derivePartition n r w 42 1) := by
  constructor
  · intro s e e' h
    simp only [hashSeed]
    omega
  · decide

/-- C3 witness: the amended statement at dataset size 8, world size 2,
rank 1. -/
theorem reshuffle_across_epochs_witness :
    derivePartition 8 1 2 42 0 ≠ derivePartition 8 1 2 42 1 :=
  reshuffle_across_epochs.2 8 (by decide) 2 (by decide) 1 (by decide)

/-! ## Loss accumulation -/

theorem foldl_add_eq {α : Type} (g : α → ℚ) (l : List α) (c : ℚ) :
    l.foldl (fun acc b => acc + g b) c = c + (l.map g).sum := by
  induction l generalizing c with
  | nil => simp
  | cons a t ih => simp [ih, add_assoc]

/-- C4: the accumulated train loss of an epoch is exactly the sum over its
batches of the scalar batch loss divided by that batch's size, with no
division by the batch count; consequently, for a fixed positive per-batch
loss and batch size, an epoch with strictly more batches accumulates a
strictly larger sum. -/
theorem epoch_loss_unnormalized_sum :
    (∀ bl : List (ℚ × ℕ),
      epochLossAccum bl = (bl.map (fun b => b.1 / (b.2 : ℚ))).sum) ∧
    (∀ (q : ℚ) (sz k₁ k₂ : ℕ), 0 < q → 0 < sz → k₁ < k₂ →
      epochLossAccum (List.replicate k₁ (q, sz))
        < epochLossAccum (List.replicate k₂ (q, sz))) := by
  have hsum : ∀ bl : List (ℚ × ℕ),
      epochLossAccum bl = (bl.map (fun b => b.1 / (b.2 : ℚ))).sum := by
    intro bl
    rw [epochLossAccum, foldl_add_eq]
    simp
  refine ⟨hsum, ?_⟩
  intro q sz k₁ k₂ hq hsz hk
  have hrep : ∀ k : ℕ,
      epochLossAccum (List.replicate k (q, sz)) = (k : ℚ) * (q / (sz : ℚ)) := by
    intro k
    rw [hsum, List.map_replicate, List.sum_replicate, nsmul_eq_mul]
  rw [hrep, hrep]
  have hd : (0 : ℚ) < q / (sz : ℚ) :=
    div_pos hq (by exact_mod_cast hsz)
  exact mul_lt_mul_of_pos_right (by exact_mod_cast hk) hd

/-- C4 witness: an empty epoch accumulates strictly less than a one-batch
epoch of loss 1 over batches of size 2. -/
theorem epoch_loss_unnormalized_sum_witness :
    epochLossAccum (List.replicate 0 ((1 : ℚ), 2))
      < epochLossAccum (List.replicate 1 ((1 : ℚ), 2)) :=
  epoch_loss_unnormalized_sum.2 1 2 0 1 one_pos (by decide) (by decide)

/-! ## Validation pass -/

theorem validationPass_foldl (f : List ℚ → ℕ → ℚ) (p : List ℚ)
    (bs : List (ℕ × ℕ)) : ∀ acc : ℚ,
    bs.foldl (fun st b => (st.1, st.2 + f st.1 b.1 / (b.2 : ℚ))) (p, acc)
      = (p, bs.foldl (fun a b => a + f p b.1 / (b.2 : ℚ)) acc) := by
  induction bs with
  | nil => intro acc; rfl
  | cons b t ih => intro acc; rw [List.foldl_cons, List.foldl_cons]; exact ih _

/-- C5: the validation pass leaves the model parameters exactly as they were
when it began (its loop body assigns no parameter), while folding over the
whole validation batch list and accumulating scalar loss over batch size
exactly as the training accumulation does. -/
theorem validation_pass_frame (f : List ℚ → ℕ → ℚ) (p : List ℚ)
    (bs : List (ℕ × ℕ)) :
    (validationPass f p bs).1 = p ∧
    (validationPass f p bs).2 = epochLossAccum (bs.map (fun b => (f p b.1, b.2))) := by
  rw [validationPass, validationPass_foldl, epochLossAccum, List.foldl_map]
  exact ⟨rfl, rfl⟩

/-! ## Parameter replica convergence -/

theorem runBatches_replica_eq (w : ℕ) (lr : ℚ)
    (grad : ℕ → ℕ → List ℚ → List ℚ) :
    ∀ (bs : List ℕ) (ps : ℕ → List ℚ),
      (∀ j k, j < w → k < w → ps j = ps k) →
      ∀ j k, j < w → k < w →
        runBatches w lr grad bs ps j = runBatches w lr grad bs ps k := by
  intro bs
  induction bs with
  | nil => intro ps h j k hj hk; exact h j k hj hk
  | cons b t ih =>
      intro ps h j k hj hk
      have hstep : ∀ j k, j < w → k < w →
          ddpBatchStep w lr grad b ps j = ddpBatchStep w lr grad b ps k := by
        intro j k hj hk
        unfold ddpBatchStep
        rw [h j k hj hk]
      exact ih (ddpBatchStep w lr grad b ps) hstep j k hj hk

/-- C9: if all workers start a training epoch with identical parameter
replicas, then after any completed batch's optimizer step (any prefix of the
batch list) all workers hold numerically identical parameters: each replica
is mutated only by the SGD sub-step applied to the shared averaged
gradient. -/
theorem replicas_identical_after_any_batch (w : ℕ) (lr : ℚ)
    (grad : ℕ → ℕ → List ℚ → List ℚ) (ps : ℕ → List ℚ)
    (h : ∀ j k, j < w → k < w → ps j = ps k) (bs : List ℕ) (t j k : ℕ)
    (hj : j < w) (hk : k < w) :
    runBatches w lr grad (bs.take t) ps j
      = runBatches w lr grad (bs.take t) ps k :=
  runBatches_replica_eq w lr grad (bs.take t) ps h j k hj hk

/-- C9 witness: a two-worker simulation with a parameter-dependent gradient
oracle after its first batch. -/
theorem replicas_identical_after_any_batch_witness :
    runBatches 2 (1/100) (fun _ _ p => p) ([0, 1].take 1) (fun _ => [1, 2]) 0
      = runBatches 2 (1/100) (fun _ _ p => p) ([0, 1].take 1) (fun _ => [1, 2]) 1 :=
  replicas_identical_after_any_batch 2 (1/100) (fun _ _ p => p)
    (fun _ => [1, 2]) (fun _ _ _ _ => rfl) [0, 1] 1 0 1 (by decide) (by decide)

/-- C7: the toy scenario of dataset size 4, world size 2 and batch size 2 —
each rank partition has length 2, which is exactly one batch — and one batch
step of plain SGD at the fixed learning rate 1/100: every worker's post-step
parameters equal `p - (1/100) * g` componentwise, where `g` is the average
of the two workers' gradients, with no momentum, clipping or schedule. -/
theorem sgd_exact_update :
    (∀ r, r < 2 → (derivePartition 4 r 2 42 0).length = 2 ∧
        numBatches (derivePartition 4 r 2 42 0).length 2 = 1) ∧
    (∀ (p g₀ g₁ : List ℚ) (k : ℕ), k < 2 →
      runBatches 2 (1/100) (fun j _ _ => if j = 0 then g₀ else g₁) [0]
          (fun _ => p) k
        = List.zipWith (fun a b => a - (1/100) * b) p
            (vscale (1/2) (vadd g₀ g₁))) := by
  constructor
  · decide
  · intro p g₀ g₁ k _
    simp [runBatches, ddpBatchStep, avgGrad, sgdStep,
      show List.range 2 = [0, 1] from rfl, sumVecs, Nat.cast_ofNat]

/-- C7 witness: the update at concrete parameters and gradients. -/
theorem sgd_exact_update_witness :
    runBatches 2 (1/100) (fun j _ _ => if j = 0 then [3] else [5]) [0]
        (fun _ => [10]) 0
      = List.zipWith (fun a b => a - (1/100) * b) [10]
          (vscale (1/2) (vadd [3] [5])) :=
  sgd_exact_update.2 [10] [3] [5] 0 (by decide)

/-! ## Non-finite loss behaviour -/

theorem fadd_nan_left (y : FVal) : fadd FVal.nan y = FVal.nan := by
  cases y <;> rfl

theorem fadd_nan_right (x : FVal) : fadd x FVal.nan = FVal.nan := by
  cases x <;> rfl

theorem trainLoop_steps (bl : List (FVal × ℕ)) : ∀ st : FVal × ℕ,
    (bl.foldl trainStep st).2 = st.2 + bl.length := by
  induction bl with
  | nil => intro st; simp
  | cons b t ih =>
      intro st
      rw [List.foldl_cons, ih]
      simp [trainStep]
      omega

theorem trainLoop_nan_acc (bl : List (FVal × ℕ)) : ∀ c : ℕ,
    (bl.foldl trainStep (FVal.nan, c)).1 = FVal.nan := by
  induction bl with
  | nil => intro c; rfl
  | cons b t ih =>
      intro c
      rw [List.foldl_cons]
      have hstep : trainStep (FVal.nan, c) b = (FVal.nan, c + 1) := by
        simp [trainStep, fadd_nan_left]
      rw [hstep]
      exact ih (c + 1)

theorem trainLoop_nan_of_mem (bl : List (FVal × ℕ)) : ∀ st : FVal × ℕ,
    FVal.nan ∈ bl.map Prod.fst → (bl.foldl trainStep st).1 = FVal.nan := by
  induction bl with
  | nil => intro st h; simp at h
  | cons b t ih =>
      intro st h
      rw [List.foldl_cons]
      rw [List.map_cons] at h
      rcases List.mem_cons.mp h with hb | ht
      · have hb' : b.1 = FVal.nan := hb.symm
        have hstep : trainStep st b = (FVal.nan, st.2 + 1) := by
          simp [trainStep, hb', fdivNat, fadd_nan_right]
        rw [hstep]
        exact trainLoop_nan_acc t (st.2 + 1)
      · exact ih _ ht

/-- C8 counterexample: a two-batch epoch whose first batch loss is non-finite
still executes both optimizer steps — a further step is applied after the
non-finite loss — and silently folds the non-finite value into the epoch
sum, so the loop does not treat the non-finite loss as fatal. -/
theorem nonfinite_loss_counterexample :
    (trainLoopFV [(FVal.nan, 2), (FVal.num 1, 2)]).2 = 2 ∧
    (trainLoopFV [(FVal.nan, 2), (FVal.num 1, 2)]).1 = FVal.nan :=
  ⟨rfl, rfl⟩

/-- C8 amended: the batch loop applies no gradient clipping and skips no
batch — it executes exactly one optimizer step per batch regardless of loss
finiteness — and a non-finite batch loss silently propagates into the
accumulated epoch sum while training continues. -/
theorem training_continues_after_nonfinite_loss (bl : List (FVal × ℕ)) :
    (trainLoopFV bl).2 = bl.length ∧
    (FVal.nan ∈ bl.map Prod.fst → (trainLoopFV bl).1 = FVal.nan) := by
  constructor
  · rw [trainLoopFV, trainLoop_steps]
    simp
  · exact fun h => trainLoop_nan_of_mem bl _ h

/-- C8 witness: a single non-finite batch contaminates the epoch sum. -/
theorem training_continues_after_nonfinite_loss_witness :
    (trainLoopFV [(FVal.nan, 2)]).1 = FVal.nan :=
  (training_continues_after_nonfinite_loss [(FVal.nan, 2)]).2 (by simp)

/-! ## Checkpoint writer and returned model -/

/-- C6: only the worker of rank 0 invokes the checkpoint write — exactly one
write call — and every other rank performs zero write calls; in the three
worker scenario the per-rank write counts are `[1, 0, 0]`. -/
theorem rank0_only_checkpoint :
    (checkpointWriteCalls 0 savedKeys).length = 1 ∧
    (∀ r, r ≠ 0 → checkpointWriteCalls r savedKeys = []) ∧
    (List.range 3).map (fun r => (checkpointWriteCalls r savedKeys).length)
      = [1, 0, 0] := by
  refine ⟨rfl, ?_, rfl⟩
  intro r h
  simp [checkpointWriteCalls, h]

/-- C6 witness: rank 2 makes zero write calls. -/
theorem rank0_only_checkpoint_witness :
    checkpointWriteCalls 2 savedKeys = [] :=
  rank0_only_checkpoint.2.1 2 (by decide)

/-- C10: the checkpoint written by rank 0 carries the state dict of the base
model returned by `main`, whose keys are the original sequential layer
parameter names; none of them carries the `module.` wrapper name that the
wrapper's own state dict would prepend to every key. -/
theorem checkpoint_keys_unwrapped :
    savedKeys = ["0.weight", "0.bias", "3.weight", "3.bias", "5.weight"] ∧
    (∀ k, k ∈ savedKeys → k.data.take 7 ≠ ("module." : String).data) ∧
    ddpStateDictKeys (DDPWrapper.mk create_model)
      = savedKeys.map (fun k => "module." ++ k) := by
  refine ⟨by decide, by decide, by decide⟩

/-- C10 witness: the first saved key does not start with the wrapper name. -/
theorem checkpoint_keys_unwrapped_witness :
    ("0.weight" : String).data.take 7 ≠ ("module." : String).data :=
  checkpoint_keys_unwrapped.2.1 "0.weight" (by decide)
